import Mathlib

/-
Verification of the `last-30-days` multi-source search pipeline.

Shallow embedding of the three source modules
(`scripts/lib/dataforseo_search.py`, `scripts/lib/youtube_yt.py`,
`scripts/lib/supadata.py`).  Python strings are modelled as Lean `String`
(or `List Char` where character-level reasoning is needed); the relevant
Python `str` methods (`lower`, `strip`, `rstrip`, `startswith`, `split`,
`join`, slicing, `in`) are modelled by the helper functions below.
Network calls are modelled by passing the decoded responses (or the fact
that an exception was raised) as explicit data.
-/

namespace LastThirtyDays

/-! ### Python string primitives -/

/-- Python whitespace test used by `str.strip` / `str.split`. -/
def isPySpace (c : Char) : Bool := c.isWhitespace

/-- Models Python `str.lower` (per-character lowercasing). -/
def lowerChars (l : List Char) : List Char := l.map Char.toLower

/-- Models Python `str.strip()` on the character list. -/
def stripChars (l : List Char) : List Char :=
  ((l.dropWhile isPySpace).reverse.dropWhile isPySpace).reverse

/-- Models Python `str.lower` on `String`. -/
def pyLower (s : String) : String := ⟨lowerChars s.data⟩

/-- Models Python `str.strip()` on `String`. -/
def pyStrip (s : String) : String := ⟨stripChars s.data⟩

/-- Models Python `s.rstrip("/")`: removes all trailing slashes. -/
def rstripSlash (s : String) : String :=
  ⟨(s.data.reverse.dropWhile (fun c => c == '/')).reverse⟩

/-- The characters stripped by `rstrip('?!.')` in `_extract_core_subject`. -/
def isTrailPunct (c : Char) : Bool := c == '?' || c == '!' || c == '.'

/-- Models Python `s.rstrip('?!.')` on the character list. -/
def rstripPunctChars (l : List Char) : List Char :=
  (l.reverse.dropWhile isTrailPunct).reverse

/-- `leadsWith pat l` models Python `l.startswith(pat)`. -/
def leadsWith : List Char → List Char → Bool
  | [], _ => true
  | _ :: _, [] => false
  | a :: as, b :: bs => a == b && leadsWith as bs

/-- Accumulator pass for Python `str.split()`: `acc` holds the current
word reversed; words are emitted on whitespace or at the end. -/
def splitWsAux : List Char → List Char → List (List Char)
  | [], acc => if acc.isEmpty then [] else [acc.reverse]
  | c :: cs, acc =>
    if isPySpace c then
      if acc.isEmpty then splitWsAux cs [] else acc.reverse :: splitWsAux cs []
    else splitWsAux cs (c :: acc)

/-- Models Python `str.split()` (split on whitespace runs, no empty words). -/
def splitWs (l : List Char) : List (List Char) := splitWsAux l []

/-- Tail of Python `' '.join(words)`: a space before each further word. -/
def joinSpaceRest : List (List Char) → List Char
  | [] => []
  | w :: ws => ' ' :: (w ++ joinSpaceRest ws)

/-- Models Python `' '.join(words)` on character lists. -/
def joinSpace : List (List Char) → List Char
  | [] => []
  | w :: ws => w ++ joinSpaceRest ws

/-- Models Python `s.split(sep)` for a single-character separator. -/
def splitOnChar (sep : Char) : List Char → List (List Char)
  | [] => [[]]
  | c :: t =>
    if c == sep then [] :: splitOnChar sep t
    else
      match splitOnChar sep t with
      | [] => [[c]]
      | w :: ws => (c :: w) :: ws

/-- `containsSub pat l` models Python `pat in l` (substring containment). -/
def containsSub (pat : List Char) : List Char → Bool
  | [] => pat.isEmpty
  | c :: t => leadsWith pat (c :: t) || containsSub pat t

/-- Models Python `s[:n]`. -/
def strTake (n : Nat) (s : String) : String := ⟨s.data.take n⟩

/-- Decimal digit character. -/
def digitChar (d : Nat) : Char := Char.ofNat (48 + d)

/-- Fuel-driven digit expansion (the fuel strictly bounds `n`, so it is
never exhausted when called through `natDigits`). -/
def natDigitsAux : Nat → Nat → List Char
  | _, 0 => []
  | n, fuel + 1 =>
    if n < 10 then [digitChar n]
    else natDigitsAux (n / 10) fuel ++ [digitChar (n % 10)]

/-- Decimal digits of `n`, most significant first. -/
def natDigits (n : Nat) : List Char := natDigitsAux n (n + 1)

/-- Models Python `str(n)` for a natural number. -/
def natRepr (n : Nat) : String := ⟨natDigits n⟩

/-- Python string `<` (lexicographic by code point). -/
def strLtChars : List Char → List Char → Bool
  | [], [] => false
  | [], _ :: _ => true
  | _ :: _, [] => false
  | a :: as, b :: bs => if a == b then strLtChars as bs else decide (a < b)

/-- Python string `>=`: `a >= b` iff not `a < b`. -/
def pyStrGe (a b : String) : Bool := !(strLtChars a.data b.data)

/-! ### URL parsing (model of `urllib.parse.urlparse(url).netloc`) -/

/-- Characters allowed in a URL scheme after the leading letter. -/
def isSchemeChar (c : Char) : Bool := c.isAlphanum || c == '+' || c == '-' || c == '.'

/-- Drop a leading `scheme:` from a URL if present (as `urlsplit` does). -/
def dropScheme (l : List Char) : List Char :=
  let pre := l.takeWhile (fun c => c != ':')
  if pre.length < l.length && !pre.isEmpty &&
     (match pre with | c :: _ => c.isAlpha | [] => false) && pre.all isSchemeChar
  then l.drop (pre.length + 1) else l

/-- Models `urllib.parse.urlparse(url).netloc`: after an optional `scheme:`,
a leading `//` introduces the authority, which extends to the next
`/`, `?` or `#`; URLs without `//` have empty netloc. -/
def netloc (url : String) : String :=
  match dropScheme url.data with
  | '/' :: '/' :: r => ⟨r.takeWhile (fun c => !(c == '/' || c == '?' || c == '#'))⟩
  | _ => ""

/-! ### Data model (`youtube_yt.py` item dicts) -/

/-- The fixed relevance weight `0.7` assigned by the video source
(written as a reduced fraction so that equality tests compute). -/
def relVideo : Rat := ⟨7, 10, by norm_num, by norm_num⟩

/-- The fixed relevance weight `0.75` assigned by the overview source. -/
def relOverview : Rat := ⟨3, 4, by norm_num, by norm_num⟩

/-- Engagement statistics of a video item (`views`/`likes`/`comments`). -/
structure Engagement where
  views : Nat
  likes : Nat
  comments : Nat
deriving DecidableEq

/-- The video item dict built in `search_youtube` (youtube_yt.py lines 187-201). -/
structure VideoItem where
  video_id : String
  title : String
  url : String
  channel_name : String
  date : Option String
  engagement : Engagement
  duration : Option String
  relevance : Rat
  why_relevant : String
deriving DecidableEq

/-! ### Recency Filter (`youtube_yt.py`, `search_youtube` lines 203-209) -/

/-- The comprehension predicate `i["date"] and i["date"] >= from_date`:
a `None` or empty date is falsy in Python, otherwise compare lexicographically. -/
def isRecent (fromDate : String) (i : VideoItem) : Bool :=
  match i.date with
  | none => false
  | some d => !(d == "") && pyStrGe d fromDate

/-- The soft date filter of `search_youtube`:
`recent = [i for i in items if i["date"] and i["date"] >= from_date]`,
then `items = recent` only when `len(recent) >= 3`. -/
def recencyFilter (fromDate : String) (items : List VideoItem) : List VideoItem :=
  let recent := items.filter (isRecent fromDate)
  if 3 ≤ recent.length then recent else items

/-! ### Query Builder (`dataforseo_search.py`, `_build_structured_queries`) -/

/-- The fixed three-template list (`queries` local, lines 95-99). -/
def queryTemplates (topic : String) : List String :=
  ["What are the biggest " ++ topic ++ " trends and what's driving them?",
   "Who are the top influencers and brands in " ++ topic ++ " right now?",
   "What do experts recommend for " ++ topic ++ " in 2026?"]

/-- `_build_structured_queries(topic, depth)`:
`count = {"quick": 1, "default": 2, "deep": 3}.get(depth, 2)` then
`queries[:count]`. -/
def _build_structured_queries (topic depth : String) : List String :=
  let queries := queryTemplates topic
  let count : Nat :=
    if depth == "quick" then 1
    else if depth == "default" then 2
    else if depth == "deep" then 3
    else 2
  queries.take count

/-! ### Theorems: C1 and C3 -/

/-- C1: for every item list and from-date, the Recency Filter returns exactly
the subset of items with a known (non-null, non-empty) date `>= from_date`
whenever that subset has at least 3 members, and returns the full original
list unchanged whenever fewer than 3 items satisfy the condition. -/
theorem recencyFilter_spec (items : List VideoItem) (fromDate : String) :
    (3 ≤ (items.filter (isRecent fromDate)).length →
      recencyFilter fromDate items = items.filter (isRecent fromDate)) ∧
    ((items.filter (isRecent fromDate)).length < 3 →
      recencyFilter fromDate items = items) := by
  constructor <;> intro h <;> simp only [recencyFilter]
  · rw [if_pos h]
  · rw [if_neg (by omega)]

/-- Sample video item used by concrete witnesses. -/
def sampleVideo (d : Option String) : VideoItem :=
  { video_id := "v", title := "t", url := "https://www.youtube.com/watch?v=v",
    channel_name := "c", date := d, engagement := ⟨0, 0, 0⟩,
    duration := none, relevance := relVideo, why_relevant := "" }

/-- Witness for C1: three dated items survive the filter, so it returns
exactly the recent subset. -/
theorem recencyFilter_spec_witness :
    3 ≤ (([sampleVideo (some "2025-02-01"), sampleVideo (some "2025-03-01"),
           sampleVideo none, sampleVideo (some "2025-04-01")].filter
            (isRecent "2025-01-01")).length) ∧
    recencyFilter "2025-01-01"
        [sampleVideo (some "2025-02-01"), sampleVideo (some "2025-03-01"),
         sampleVideo none, sampleVideo (some "2025-04-01")] =
      [sampleVideo (some "2025-02-01"), sampleVideo (some "2025-03-01"),
       sampleVideo (some "2025-04-01")] := by
  refine ⟨by decide, ?_⟩
  have h := (recencyFilter_spec
    [sampleVideo (some "2025-02-01"), sampleVideo (some "2025-03-01"),
     sampleVideo none, sampleVideo (some "2025-04-01")] "2025-01-01").1 (by decide)
  rw [h]
  decide

/-- C3: for every topic, the overview-source Query Builder returns exactly
1, 2, 3 queries for depths quick, default, deep, and for any depth the
returned list is a prefix of the fixed three-template list. -/
theorem build_structured_queries_spec (topic : String) :
    (_build_structured_queries topic "quick").length = 1 ∧
    (_build_structured_queries topic "default").length = 2 ∧
    (_build_structured_queries topic "deep").length = 3 ∧
    ∀ depth : String, ∃ rest : List String,
      queryTemplates topic = _build_structured_queries topic depth ++ rest := by
  refine ⟨rfl, rfl, rfl, ?_⟩
  intro depth
  simp only [_build_structured_queries]
  exact ⟨_, (List.take_append_drop _ _).symm⟩

/-! ### Cross-Query Deduplicator (`dataforseo_search.py`, `search_web` lines 52-66) -/

/-- The web item dict built in `_normalize_results` (lines 233-243),
matching the brave_search schema. -/
structure WebItem where
  id : String
  title : String
  url : String
  source_domain : String
  snippet : String
  date : Option String
  date_confidence : String
  relevance : Rat
  why_relevant : String
deriving DecidableEq

/-- The canonical dedup key: `item["url"].lower().rstrip("/")` (line 63). -/
def canonicalKey (url : String) : String := rstripSlash (pyLower url)

/-- One step of the `search_web` dedup loop (lines 62-66); the state is the
pair `(all_items, seen_urls)`. -/
def dedupStep (acc : List WebItem × List String) (item : WebItem) :
    List WebItem × List String :=
  let k := canonicalKey item.url
  if acc.2.contains k then acc else (acc.1 ++ [item], k :: acc.2)

/-- The cross-query deduplication of `search_web`: iterate the per-query
normalized item lists in issuance order, accumulating `all_items` and
`seen_urls` across queries. -/
def dedupAcrossQueries (queryItems : List (List WebItem)) : List WebItem :=
  (queryItems.foldl (fun acc items => items.foldl dedupStep acc) ([], [])).1

/-- Spec-side characterization: keep exactly the first occurrence of each
canonical key, in order. -/
def firstOccurrences : List WebItem → List WebItem
  | [] => []
  | x :: xs =>
    x :: firstOccurrences
      (xs.filter (fun y => !(canonicalKey y.url == canonicalKey x.url)))
termination_by l => l.length
decreasing_by
  have h := List.length_filter_le
    (fun y => !(canonicalKey y.url == canonicalKey x.url)) xs
  simp only [List.length_cons]
  omega

/-- First occurrences relative to an already-seen key set. -/
def firstOccSeen : List String → List WebItem → List WebItem
  | _, [] => []
  | seen, x :: xs =>
    if seen.contains (canonicalKey x.url) then firstOccSeen seen xs
    else x :: firstOccSeen (canonicalKey x.url :: seen) xs

theorem stringExt {s t : String} (h : s.data = t.data) : s = t := by
  cases s; cases t; exact congrArg String.mk h

theorem beqStringComm (a b : String) : (a == b) = (b == a) := by
  by_cases h : a = b
  · subst h; rfl
  · rw [beq_eq_false_iff_ne.mpr h, beq_eq_false_iff_ne.mpr (Ne.symm h)]

theorem foldl_dedupStep (l : List WebItem) :
    ∀ (acc : List WebItem) (seen : List String),
      (l.foldl dedupStep (acc, seen)).1 = acc ++ firstOccSeen seen l := by
  induction l with
  | nil => intro acc seen; simp [firstOccSeen]
  | cons x xs ih =>
    intro acc seen
    rw [List.foldl_cons]
    by_cases hc : seen.contains (canonicalKey x.url)
    · have hm : canonicalKey x.url ∈ seen := by simpa using hc
      have hstep : dedupStep (acc, seen) x = (acc, seen) := by
        simp [dedupStep, hm]
      rw [hstep, ih, firstOccSeen, if_pos hc]
    · have hm : canonicalKey x.url ∉ seen := by simpa using hc
      have hstep : dedupStep (acc, seen) x =
          (acc ++ [x], canonicalKey x.url :: seen) := by
        simp [dedupStep, hm]
      rw [hstep, ih, firstOccSeen, if_neg hc, List.append_assoc,
        List.singleton_append]

theorem firstOccSeen_eq_firstOccurrences (l : List WebItem) :
    ∀ seen : List String,
      firstOccSeen seen l =
        firstOccurrences (l.filter (fun y => !(seen.contains (canonicalKey y.url)))) := by
  induction l with
  | nil => intro seen; simp [firstOccSeen, firstOccurrences]
  | cons x xs ih =>
    intro seen
    by_cases hc : seen.contains (canonicalKey x.url)
    · have hm : canonicalKey x.url ∈ seen := by simpa using hc
      rw [firstOccSeen, if_pos hc, List.filter_cons_of_neg (by simp [hm]), ih]
    · have hm : canonicalKey x.url ∉ seen := by simpa using hc
      rw [firstOccSeen, if_neg hc, List.filter_cons_of_pos (by simp [hm]),
        firstOccurrences, ih (canonicalKey x.url :: seen)]
      refine congrArg (fun t => x :: firstOccurrences t) ?_
      rw [List.filter_filter]
      refine List.filter_congr fun y _ => ?_
      simp only [List.contains_cons, Bool.not_or]

/-- C2: the cross-query deduplicator keyed on the lowercased,
trailing-slash-stripped URL keeps exactly the first occurrence of each key in
query-issuance order (`firstOccurrences` of the concatenated per-query
lists); the key is invariant under trailing slashes and case changes, so two
items whose URLs differ only that way yield exactly one merged entry. -/
theorem search_web_dedup_spec (queryItems : List (List WebItem)) :
    dedupAcrossQueries queryItems = firstOccurrences queryItems.flatten ∧
    (∀ u : String, canonicalKey (u ++ "/") = canonicalKey u) ∧
    (∀ u v : String, pyLower u = pyLower v → canonicalKey u = canonicalKey v) ∧
    (∀ a b : WebItem, canonicalKey a.url = canonicalKey b.url →
      dedupAcrossQueries [[a], [b]] = [a]) := by
  have hmain : ∀ qs : List (List WebItem),
      dedupAcrossQueries qs = firstOccurrences qs.flatten := by
    intro qs
    have h1 : dedupAcrossQueries qs =
        (qs.flatten.foldl dedupStep ([], [])).1 := by
      rw [dedupAcrossQueries, List.foldl_flatten]
    rw [h1, foldl_dedupStep, firstOccSeen_eq_firstOccurrences]
    simp only [List.contains_nil, Bool.not_false, List.filter_true,
      List.nil_append]
  have hslash : ∀ u : String, canonicalKey (u ++ "/") = canonicalKey u := by
    intro u
    apply stringExt
    simp only [canonicalKey, rstripSlash, pyLower, lowerChars, String.data_append,
      List.map_append]
    have hlow : ("/" : String).data.map Char.toLower = ['/'] := rfl
    rw [hlow, List.reverse_append]
    rfl
  have hcase : ∀ u v : String, pyLower u = pyLower v →
      canonicalKey u = canonicalKey v := by
    intro u v h
    simp only [canonicalKey, h]
  refine ⟨hmain queryItems, hslash, hcase, ?_⟩
  intro a b hab
  have h1 : dedupAcrossQueries [[a], [b]] = firstOccurrences [a, b] := by
    simpa using hmain [[a], [b]]
  rw [h1]
  have h2 : firstOccurrences [a, b] =
      a :: firstOccurrences
        ([b].filter (fun y => !(canonicalKey y.url == canonicalKey a.url))) := by
    rw [firstOccurrences]
  rw [h2, List.filter_cons_of_neg (by simp [hab]), List.filter_nil,
    firstOccurrences]

/-- Sample web item used by concrete witnesses. -/
def sampleWeb (i : String) (u : String) : WebItem :=
  { id := i, title := "Best E-Bikes", url := u, source_domain := "example.com",
    snippet := "snippet", date := none, date_confidence := "low",
    relevance := relOverview, why_relevant := "" }

/-- Witness for C2: two queries returning the same URL up to case and a
trailing slash merge into a single entry that keeps the first-seen item. -/
theorem search_web_dedup_spec_witness :
    canonicalKey (sampleWeb "D1" "https://Example.com/E-Bikes/").url =
      canonicalKey (sampleWeb "D1" "https://example.com/e-bikes").url ∧
    dedupAcrossQueries
        [[sampleWeb "D1" "https://Example.com/E-Bikes/"],
         [sampleWeb "D1" "https://example.com/e-bikes"]] =
      [sampleWeb "D1" "https://Example.com/E-Bikes/"] := by
  refine ⟨by decide, ?_⟩
  exact (search_web_dedup_spec
      [[sampleWeb "D1" "https://Example.com/E-Bikes/"],
       [sampleWeb "D1" "https://example.com/e-bikes"]]).2.2.2
    (sampleWeb "D1" "https://Example.com/E-Bikes/")
    (sampleWeb "D1" "https://example.com/e-bikes") (by decide)

/-! ### Async Job Poller (`supadata.py`, `_poll_job` lines 47-75) -/

/-- The observable outcome of one status poll: either the decoded body
(`data.get("status")` plus optional `content` field), or an exception
raised during the request/parse (the `except` branch of the loop body). -/
inductive PollOutcome where
  | response (status : String) (content : Option String)
  | raised
deriving DecidableEq

/-- Models `content = data.get("content") or ""` followed by
`return content if content else None` (lines 64-65). -/
def contentResult (content : Option String) : Option String :=
  match content with
  | some c => if c = "" then none else some c
  | none => none

/-- The polling loop of `_poll_job`.  `polls k` answers the k-th status
request (0-based); `elapsed` is the accumulated wait before the current
iteration's sleep.  While `elapsed < max_wait`: sleep, add `interval` to
`elapsed`, poll; a raised exception returns `None` immediately;
`completed` returns the non-empty content or `None`; `failed` returns
`None`; any other status continues; falling out of the loop returns
`None` (timeout).  Termination requires a positive interval, exactly as
the Python loop does. -/
def pollJobAux (polls : Nat → PollOutcome) (maxWait interval : Nat)
    (hpos : 0 < interval) (k elapsed : Nat) : Option String :=
  if elapsed < maxWait then
    match polls k with
    | .raised => none
    | .response status content =>
      if status = "completed" then contentResult content
      else if status = "failed" then none
      else pollJobAux polls maxWait interval hpos (k + 1) (elapsed + interval)
  else none
termination_by maxWait - elapsed
decreasing_by omega

/-- `_poll_job(job_id, api_key, max_wait, interval)` with the network
modelled by `polls`. -/
def _poll_job (polls : Nat → PollOutcome) (maxWait interval : Nat)
    (hpos : 0 < interval) : Option String :=
  pollJobAux polls maxWait interval hpos 0 0

/-- A non-terminal poll outcome (the `# else: still processing` branch). -/
def stillProcessing : PollOutcome → Bool
  | .response s _ => !(s == "completed") && !(s == "failed")
  | .raised => false

theorem pollJobAux_unfold (polls : Nat → PollOutcome) (maxWait interval : Nat)
    (hpos : 0 < interval) (k elapsed : Nat) :
    pollJobAux polls maxWait interval hpos k elapsed =
      if elapsed < maxWait then
        match polls k with
        | .raised => none
        | .response status content =>
          if status = "completed" then contentResult content
          else if status = "failed" then none
          else pollJobAux polls maxWait interval hpos (k + 1) (elapsed + interval)
      else none := by
  rw [pollJobAux]

theorem pollJobAux_step (polls : Nat → PollOutcome) (maxWait interval : Nat)
    (hpos : 0 < interval) (k elapsed : Nat)
    (hlt : elapsed < maxWait) (hp : stillProcessing (polls k)) :
    pollJobAux polls maxWait interval hpos k elapsed =
      pollJobAux polls maxWait interval hpos (k + 1) (elapsed + interval) := by
  rw [pollJobAux_unfold, if_pos hlt]
  cases hpolls : polls k with
  | raised => rw [hpolls] at hp; simp [stillProcessing] at hp
  | response s c =>
    rw [hpolls] at hp
    simp only [stillProcessing, Bool.and_eq_true, Bool.not_eq_true', beq_eq_false_iff_ne] at hp
    simp [hp.1, hp.2]

theorem pollJobAux_advance (polls : Nat → PollOutcome) (maxWait interval : Nat)
    (hpos : 0 < interval) :
    ∀ (n k elapsed : Nat),
      (∀ j, j < n → stillProcessing (polls (k + j))) →
      (∀ j, j < n → elapsed + j * interval < maxWait) →
      pollJobAux polls maxWait interval hpos k elapsed =
        pollJobAux polls maxWait interval hpos (k + n) (elapsed + n * interval) := by
  intro n
  induction n with
  | zero => intro k e _ _; simp
  | succ m ih =>
    intro k e hproc hlt
    have h0 : e < maxWait := by simpa using hlt 0 (by omega)
    have hp0 : stillProcessing (polls k) := by simpa using hproc 0 (by omega)
    rw [pollJobAux_step polls maxWait interval hpos k e h0 hp0]
    have hproc' : ∀ j, j < m → stillProcessing (polls (k + 1 + j)) := by
      intro j hj
      have h := hproc (j + 1) (by omega)
      have e1 : k + (j + 1) = k + 1 + j := by omega
      rwa [e1] at h
    have hlt' : ∀ j, j < m → (e + interval) + j * interval < maxWait := by
      intro j hj
      have h := hlt (j + 1) (by omega)
      rw [Nat.succ_mul] at h
      omega
    rw [ih (k + 1) (e + interval) hproc' hlt']
    have e1 : k + 1 + m = k + (m + 1) := by omega
    have e2 : e + interval + m * interval = e + (m + 1) * interval := by
      rw [Nat.succ_mul]; omega
    rw [e1, e2]

theorem pollJobAux_timeout (polls : Nat → PollOutcome) (maxWait interval : Nat)
    (hpos : 0 < interval) :
    ∀ (fuel elapsed k : Nat), maxWait - elapsed ≤ fuel →
      (∀ j, elapsed + j * interval < maxWait → stillProcessing (polls (k + j))) →
      pollJobAux polls maxWait interval hpos k elapsed = none := by
  intro fuel
  induction fuel with
  | zero =>
    intro e k hf _
    rw [pollJobAux_unfold, if_neg (by omega)]
  | succ m ih =>
    intro e k hf hproc
    by_cases hlt : e < maxWait
    · have hp0 : stillProcessing (polls k) := by
        simpa using hproc 0 (by simpa using hlt)
      rw [pollJobAux_step polls maxWait interval hpos k e hlt hp0]
      refine ih (e + interval) (k + 1) (by omega) ?_
      intro j hj
      have h := hproc (j + 1) (by rw [Nat.succ_mul]; omega)
      have e1 : k + (j + 1) = k + 1 + j := by omega
      rwa [e1] at h
    · rw [pollJobAux_unfold, if_neg hlt]

theorem pollJobAux_some (polls : Nat → PollOutcome) (maxWait interval : Nat)
    (hpos : 0 < interval) :
    ∀ (fuel elapsed k : Nat) (c : String), maxWait - elapsed ≤ fuel →
      pollJobAux polls maxWait interval hpos k elapsed = some c →
      c ≠ "" ∧ ∃ j, polls j = .response "completed" (some c) := by
  intro fuel
  induction fuel with
  | zero =>
    intro e k c hf h
    rw [pollJobAux_unfold, if_neg (by omega)] at h
    exact absurd h (by simp)
  | succ m ih =>
    intro e k c hf h
    by_cases hlt : e < maxWait
    · rw [pollJobAux_unfold, if_pos hlt] at h
      cases hpolls : polls k with
      | raised => rw [hpolls] at h; exact absurd h (by simp)
      | response s ct =>
        rw [hpolls] at h
        dsimp only at h
        by_cases hs : s = "completed"
        · rw [if_pos hs] at h
          cases ct with
          | none => exact absurd h (by simp [contentResult])
          | some str =>
            by_cases hstr : str = ""
            · rw [hstr] at h
              exact absurd h (by simp [contentResult])
            · have : some str = some c := by
                simpa [contentResult, hstr] using h
              obtain rfl : str = c := by injection this
              exact ⟨hstr, k, by rw [hpolls, hs]⟩
        · rw [if_neg hs] at h
          by_cases hs2 : s = "failed"
          · rw [if_pos hs2] at h; exact absurd h (by simp)
          · rw [if_neg hs2] at h
            exact ih (e + interval) (k + 1) c (by omega) h
    · rw [pollJobAux_unfold, if_neg hlt] at h
      exact absurd h (by simp)

/-- C4: the poller returns `none` when the first terminal observation is
`completed` with empty/absent content, or `failed`, or when a transport
exception is raised (immediately, with no further polls), or when every
poll within the max-wait budget is non-terminal (timeout); and it returns
`some c` exactly when some poll observes `completed` with non-empty
content `c`.  Poll `k` (0-based) runs iff all earlier polls are
non-terminal and `k * interval < maxWait`. -/
theorem poll_job_spec (polls : Nat → PollOutcome) (maxWait interval : Nat)
    (hpos : 0 < interval) :
    (∀ k c, (∀ j, j < k → stillProcessing (polls j)) → k * interval < maxWait →
      polls k = .response "completed" c → (c = none ∨ c = some "") →
      _poll_job polls maxWait interval hpos = none) ∧
    (∀ k c, (∀ j, j < k → stillProcessing (polls j)) → k * interval < maxWait →
      polls k = .response "failed" c →
      _poll_job polls maxWait interval hpos = none) ∧
    (∀ k, (∀ j, j < k → stillProcessing (polls j)) → k * interval < maxWait →
      polls k = .raised →
      _poll_job polls maxWait interval hpos = none) ∧
    ((∀ j, j * interval < maxWait → stillProcessing (polls j)) →
      _poll_job polls maxWait interval hpos = none) ∧
    (∀ k c, (∀ j, j < k → stillProcessing (polls j)) → k * interval < maxWait →
      polls k = .response "completed" (some c) → c ≠ "" →
      _poll_job polls maxWait interval hpos = some c) ∧
    (∀ c, _poll_job polls maxWait interval hpos = some c →
      c ≠ "" ∧ ∃ j, polls j = .response "completed" (some c)) := by
  have hadv : ∀ k, (∀ j, j < k → stillProcessing (polls j)) →
      k * interval < maxWait →
      _poll_job polls maxWait interval hpos =
        pollJobAux polls maxWait interval hpos k (k * interval) := by
    intro k hproc hk
    have h := pollJobAux_advance polls maxWait interval hpos k 0 0
      (fun j hj => by simpa using hproc j hj)
      (fun j hj => by
        have hle : j * interval ≤ k * interval :=
          Nat.mul_le_mul_right interval (by omega)
        omega)
    simpa using h
  refine ⟨?_, ?_, ?_, ?_, ?_, ?_⟩
  · intro k c hproc hk hpoll hc
    rw [hadv k hproc hk, pollJobAux_unfold, if_pos hk, hpoll]
    rcases hc with rfl | rfl <;> simp [contentResult]
  · intro k c hproc hk hpoll
    rw [hadv k hproc hk, pollJobAux_unfold, if_pos hk, hpoll]
    simp
  · intro k hproc hk hpoll
    rw [hadv k hproc hk, pollJobAux_unfold, if_pos hk, hpoll]
  · intro hproc
    exact pollJobAux_timeout polls maxWait interval hpos maxWait 0 0 (by omega)
      (fun j hj => by simpa using hproc j (by simpa using hj))
  · intro k c hproc hk hpoll hc
    rw [hadv k hproc hk, pollJobAux_unfold, if_pos hk, hpoll]
    simp [contentResult, hc]
  · intro c h
    exact pollJobAux_some polls maxWait interval hpos maxWait 0 0 c (by omega) h

/-- Witness for C4: with the default budget (max_wait 60, interval 3), a
transport exception on the very first poll yields `none`. -/
theorem poll_job_spec_witness :
    _poll_job (fun _ => PollOutcome.raised) 60 3 (by omega) = none :=
  (poll_job_spec (fun _ => PollOutcome.raised) 60 3 (by omega)).2.2.1 0
    (fun j hj => absurd hj (by omega)) (by omega) rfl

/-! ### Parallel Fetch Coordinator
(`youtube_yt.py` `fetch_transcripts_parallel` lines 253-286 and
`supadata.py` `fetch_transcripts_batch` lines 152-187) -/

/-- The behaviour of one submitted per-key fetch callable: it either
returns a value (the `Optional[str]` result of `fetch_transcript`) or
raises, in which case the coordinator's `except` records `None`. -/
inductive FetchOutcome where
  | value (s : Option String)
  | raised
deriving DecidableEq

/-- The entry the coordinator records for one key:
`results[key] = future.result()` on success, `results[key] = None` on a
raised exception. -/
def outcomeEntry : FetchOutcome → Option String
  | .value v => v
  | .raised => none

def isRaised : FetchOutcome → Bool
  | .value _ => false
  | .raised => true

/-- `fetch_transcripts_parallel(video_ids, max_workers)`: dispatch every id,
collect one entry per id (exceptions recorded as `None`).  The returned
dict is modelled as an association list keyed in input order; completion
order only permutes dict insertion order, not its contents, and each key
is written exactly once. -/
def fetch_transcripts_parallel (videoIds : List String)
    (fetch : String → FetchOutcome) : List (String × Option String) :=
  if videoIds.isEmpty then []
  else videoIds.map (fun v => (v, outcomeEntry (fetch v)))

/-- `fetch_transcripts_batch(urls, api_key, max_workers)`: returns `{}` when
`not urls or not api_key`, else one entry per url as above; the fetch
callable receives the url and the api key. -/
def fetch_transcripts_batch (urls : List String) (apiKey : String)
    (fetch : String → String → FetchOutcome) : List (String × Option String) :=
  if urls.isEmpty || apiKey == "" then []
  else urls.map (fun u => (u, outcomeEntry (fetch u apiKey)))

/-- C5 counterexample: one key whose fetch returns `None` *without*
raising (as `fetch_transcript` does when no transcript is available):
zero fetches raise, yet the mapping contains a null entry, so the null
count is not the raise count. -/
theorem fetch_coordinator_cex :
    (fetch_transcripts_parallel ["u1"] (fun _ => FetchOutcome.value none)).length = 1 ∧
    (["u1"].filter (fun v => isRaised ((fun _ => FetchOutcome.value none) v))).length = 0 ∧
    ((fetch_transcripts_parallel ["u1"] (fun _ => FetchOutcome.value none)).filter
      (fun p => p.2.isNone)).length ≠ 0 := by
  decide

/-- C5 amended: for distinct keys the coordinator returns one entry per
input key in input order, never propagating a per-key exception: every
raising key maps to null, and the number of null entries equals the
number of keys whose fetch raises *or returns null without raising* —
hence exactly K nulls for K raisers precisely when every non-raising
fetch returns a non-null value.  The supadata batch coordinator (with a
non-empty API key) behaves identically. -/
theorem fetch_coordinator_amended (videoIds : List String)
    (fetch : String → FetchOutcome) (hnd : videoIds.Nodup) :
    (fetch_transcripts_parallel videoIds fetch).length = videoIds.length ∧
    (fetch_transcripts_parallel videoIds fetch).map Prod.fst = videoIds ∧
    (∀ v ∈ videoIds,
      (v, outcomeEntry (fetch v)) ∈ fetch_transcripts_parallel videoIds fetch) ∧
    (∀ v ∈ videoIds, isRaised (fetch v) →
      (v, (none : Option String)) ∈ fetch_transcripts_parallel videoIds fetch) ∧
    ((fetch_transcripts_parallel videoIds fetch).filter
        (fun p => p.2.isNone)).length =
      (videoIds.filter (fun v => (outcomeEntry (fetch v)).isNone)).length ∧
    ((∀ v ∈ videoIds, ¬ isRaised (fetch v) → (outcomeEntry (fetch v)).isSome) →
      ((fetch_transcripts_parallel videoIds fetch).filter
          (fun p => p.2.isNone)).length =
        (videoIds.filter (fun v => isRaised (fetch v))).length) ∧
    (∀ apiKey : String, apiKey ≠ "" →
      fetch_transcripts_batch videoIds apiKey (fun u _ => fetch u) =
        fetch_transcripts_parallel videoIds fetch) := by
  have hpar : fetch_transcripts_parallel videoIds fetch =
      videoIds.map (fun v => (v, outcomeEntry (fetch v))) := by
    cases h : videoIds.isEmpty
    · simp [fetch_transcripts_parallel, h]
    · have h2 : videoIds = [] := by simpa using h
      subst h2; simp [fetch_transcripts_parallel]
  have hcount : ((fetch_transcripts_parallel videoIds fetch).filter
      (fun p => p.2.isNone)).length =
      (videoIds.filter (fun v => (outcomeEntry (fetch v)).isNone)).length := by
    rw [hpar, List.filter_map, List.length_map]
    exact congrArg List.length (List.filter_congr fun v _ => rfl)
  refine ⟨by rw [hpar]; simp, by rw [hpar]; simp [Function.comp_def], ?_, ?_, hcount, ?_, ?_⟩
  · intro v hv
    rw [hpar]
    exact List.mem_map_of_mem _ hv
  · intro v hv hr
    have hnone : outcomeEntry (fetch v) = none := by
      cases hf : fetch v
      · rw [hf] at hr; simp [isRaised] at hr
      · rfl
    rw [hpar]
    have hmem := List.mem_map_of_mem (fun v => (v, outcomeEntry (fetch v))) hv
    dsimp only at hmem
    rwa [hnone] at hmem
  · intro hall
    rw [hcount]
    refine congrArg List.length (List.filter_congr fun v hv => ?_)
    cases hf : fetch v with
    | raised => rfl
    | value ov =>
      cases ov with
      | some s => rfl
      | none =>
        have h1 := hall v hv (by rw [hf]; simp [isRaised])
        rw [hf] at h1
        simp [outcomeEntry] at h1
  · intro apiKey hk
    have hbeq : (apiKey == "") = false := beq_eq_false_iff_ne.mpr hk
    rw [fetch_transcripts_parallel, fetch_transcripts_batch, hbeq]
    simp

/-- Witness for C5 (amended): two distinct keys, one raising and one
returning a transcript; the null count equals the raise count. -/
theorem fetch_coordinator_amended_witness :
    (["a", "b"] : List String).Nodup ∧
    (∀ v ∈ (["a", "b"] : List String),
      ¬ isRaised (if v = "a" then FetchOutcome.raised
                  else FetchOutcome.value (some "t")) →
      (outcomeEntry (if v = "a" then FetchOutcome.raised
                     else FetchOutcome.value (some "t"))).isSome) ∧
    ((fetch_transcripts_parallel ["a", "b"]
        (fun v => if v = "a" then FetchOutcome.raised
                  else FetchOutcome.value (some "t"))).filter
      (fun p => p.2.isNone)).length =
      (["a", "b"].filter (fun v => isRaised
        (if v = "a" then FetchOutcome.raised
         else FetchOutcome.value (some "t")))).length := by
  refine ⟨by decide, by decide, ?_⟩
  exact (fetch_coordinator_amended ["a", "b"]
    (fun v => if v = "a" then FetchOutcome.raised
              else FetchOutcome.value (some "t")) (by decide)).2.2.2.2.2.1 (by decide)

/-- C10: for every non-empty url list, `fetch_transcripts_batch` called
with an empty API key returns the empty mapping (zero entries), not a
mapping with one null entry per input URL. -/
theorem fetch_batch_empty_key (urls : List String)
    (fetch : String → String → FetchOutcome) (h : urls ≠ []) :
    fetch_transcripts_batch urls "" fetch = [] ∧
    fetch_transcripts_batch urls "" fetch ≠
      urls.map (fun u => (u, (none : Option String))) := by
  have h1 : fetch_transcripts_batch urls "" fetch = [] := by
    simp [fetch_transcripts_batch]
  refine ⟨h1, ?_⟩
  rw [h1]
  intro hc
  exact h (by simpa using hc.symm)

/-- Witness for C10. -/
theorem fetch_batch_empty_key_witness :
    (["u"] : List String) ≠ [] ∧
    fetch_transcripts_batch ["u"] "" (fun _ _ => FetchOutcome.raised) = [] :=
  ⟨by decide,
   (fetch_batch_empty_key ["u"] (fun _ _ => FetchOutcome.raised) (by decide)).1⟩

/-! ### Video-source Query Cleaner
(`youtube_yt.py`, `_extract_core_subject` lines 42-77) -/

/-- The fixed ordered multi-word interrogative phrase list (lines 51-56). -/
def leadPhrases : List String :=
  ["what are the best", "what is the best", "what are the latest",
   "what are people saying about", "what do people think about",
   "how do i use", "how to use", "how to",
   "what are", "what is", "tips for", "best practices for"]

/-- The individual noise-word stoplist (lines 64-72); content-type words
such as "tutorial" and "review" are intentionally absent. -/
def noiseWords : List String :=
  ["best", "top", "good", "great", "awesome", "killer",
   "latest", "new", "news", "update", "updates",
   "trending", "hottest", "popular", "viral",
   "practices", "features",
   "recommendations", "advice",
   "prompt", "prompts", "prompting",
   "methods", "strategies", "approaches"]

/-- One pass of the phrase loop body:
`if text.startswith(p + ' '): text = text[len(p):].strip()`. -/
def stripPhraseStep (t : List Char) (p : String) : List Char :=
  if leadsWith (p.data ++ [' ']) t then stripChars (t.drop p.data.length) else t

/-- The phrase-stripping loop over `prefixes` in order. -/
def stripLeadPhrases (t : List Char) : List Char :=
  leadPhrases.foldl stripPhraseStep t

/-- The `result` local of `_extract_core_subject` just before the final
`rstrip('?!.')`: lowercase and trim the topic, strip leading phrases,
remove stoplist words, and fall back to the phrase-stripped text when the
word list would become empty. -/
def coreSubjectNoPunct (topic : String) : List Char :=
  let text := stripLeadPhrases (stripChars (lowerChars topic.data))
  let filtered := (splitWs text).filter
    (fun w => !(noiseWords.contains (⟨w⟩ : String)))
  if filtered.isEmpty then text else joinSpace filtered

/-- `_extract_core_subject(topic)`: the cleaned query, with trailing
`?`, `!`, `.` characters stripped last. -/
def _extract_core_subject (topic : String) : String :=
  ⟨rstripPunctChars (coreSubjectNoPunct topic)⟩

/-- C6 counterexample: for topic `"?"` the trimmed original topic text is
non-empty, yet the cleaner returns the empty query — the trailing
punctuation strip runs after the emptiness fallback, not before. -/
theorem extract_core_subject_cex :
    _extract_core_subject "?" = "" ∧ pyStrip "?" ≠ "" := by
  constructor
  · decide
  · decide

theorem dropWhile_head_false {α} (p : α → Bool) :
    ∀ {l : List α} {c : α} {rest : List α},
      List.dropWhile p l = c :: rest → p c = false := by
  intro l
  induction l with
  | nil => intro c rest h; simp at h
  | cons a as ih =>
    intro c rest h
    rw [List.dropWhile_cons] at h
    by_cases hp : p a
    · rw [if_pos hp] at h
      exact ih h
    · rw [if_neg hp] at h
      obtain ⟨rfl, -⟩ := List.cons.inj h
      exact Bool.of_not_eq_true hp

theorem mem_of_getLastOpt {α} : ∀ {l : List α} {a : α}, l.getLast? = some a → a ∈ l := by
  intro l
  induction l with
  | nil => intro a h; simp at h
  | cons x xs ih =>
    intro a h
    cases xs with
    | nil => simp_all
    | cons y ys =>
      rw [List.getLast?_cons_cons] at h
      exact List.mem_cons_of_mem x (ih h)

theorem getLastOpt_drop {α} : ∀ (l : List α) (n : Nat), n < l.length →
    (l.drop n).getLast? = l.getLast? := by
  intro l
  induction l with
  | nil => intro n h; simp at h
  | cons a xs ih =>
    intro n h
    cases n with
    | zero => rfl
    | succ m =>
      have hxs : m < xs.length := by simpa using h
      have hne : xs ≠ [] := by
        intro he; rw [he] at hxs; simp at hxs
      obtain ⟨b, l2, rfl⟩ := List.exists_cons_of_ne_nil hne
      rw [List.drop_succ_cons, ih m hxs, List.getLast?_cons_cons]

theorem leadsWith_length :
    ∀ {pat l : List Char}, leadsWith pat l = true → pat.length ≤ l.length := by
  intro pat
  induction pat with
  | nil => intro l _; simp
  | cons a as ih =>
    intro l h
    cases l with
    | nil => simp [leadsWith] at h
    | cons b bs =>
      simp only [leadsWith, Bool.and_eq_true] at h
      simpa using ih h.2

/-- The last character of `t` is defined and not whitespace. -/
def lastNonSpace (t : List Char) : Prop :=
  ∃ c, t.getLast? = some c ∧ isPySpace c = false

theorem stripChars_ne_nil_of_mem {l : List Char} {c : Char}
    (hc : c ∈ l) (hns : isPySpace c = false) : stripChars l ≠ [] := by
  intro he
  rw [stripChars] at he
  rw [List.reverse_eq_nil_iff, List.dropWhile_eq_nil_iff] at he
  have h1 : c ∈ l.dropWhile isPySpace := by
    rcases List.mem_append.mp
      ((List.takeWhile_append_dropWhile (p := isPySpace) (l := l)) ▸ hc) with h | h
    · exact absurd (List.mem_takeWhile_imp h) (by simp [hns])
    · exact h
  have h2 := he c (List.mem_reverse.mpr h1)
  rw [hns] at h2
  exact Bool.false_ne_true h2

theorem lastNonSpace_stripChars {l : List Char} (h : stripChars l ≠ []) :
    lastNonSpace (stripChars l) := by
  rw [stripChars] at h ⊢
  set r := (l.dropWhile isPySpace).reverse with hr
  cases hd : r.dropWhile isPySpace with
  | nil => rw [hd] at h; simp at h
  | cons c rest =>
    refine ⟨c, ?_, dropWhile_head_false isPySpace hd⟩
    rw [List.getLast?_reverse, List.head?_cons]

theorem stripPhraseStep_preserves {t : List Char} (p : String)
    (hne : t ≠ []) (hl : lastNonSpace t) :
    stripPhraseStep t p ≠ [] ∧ lastNonSpace (stripPhraseStep t p) := by
  rw [stripPhraseStep]
  by_cases hlead : leadsWith (p.data ++ [' ']) t
  · rw [if_pos hlead]
    obtain ⟨c, hc, hns⟩ := hl
    have hlen : p.data.length + 1 ≤ t.length := by
      have := leadsWith_length hlead
      simpa using this
    have hdrop : (t.drop p.data.length).getLast? = some c := by
      rw [getLastOpt_drop t p.data.length (by omega)]; exact hc
    have hcmem : c ∈ t.drop p.data.length := mem_of_getLastOpt hdrop
    have h1 : stripChars (t.drop p.data.length) ≠ [] :=
      stripChars_ne_nil_of_mem hcmem hns
    exact ⟨h1, lastNonSpace_stripChars h1⟩
  · rw [if_neg hlead]
    exact ⟨hne, hl⟩

theorem stripLeadPhrases_preserves {t : List Char}
    (hne : t ≠ []) (hl : lastNonSpace t) :
    stripLeadPhrases t ≠ [] ∧ lastNonSpace (stripLeadPhrases t) := by
  rw [stripLeadPhrases]
  generalize leadPhrases = ps
  induction ps generalizing t with
  | nil => exact ⟨hne, hl⟩
  | cons p ps ih =>
    rw [List.foldl_cons]
    obtain ⟨h1, h2⟩ := stripPhraseStep_preserves p hne hl
    exact ih h1 h2

theorem splitWsAux_ne_nil :
    ∀ (l acc : List Char), ∀ w ∈ splitWsAux l acc, w ≠ [] := by
  intro l
  induction l with
  | nil =>
    intro acc w hw
    rw [splitWsAux] at hw
    by_cases hacc : acc.isEmpty
    · rw [if_pos hacc] at hw; simp at hw
    · rw [if_neg hacc] at hw
      have hw2 : w = acc.reverse := by simpa using hw
      subst hw2
      simpa [List.isEmpty_iff] using hacc
  | cons c cs ih =>
    intro acc w hw
    rw [splitWsAux] at hw
    by_cases hc : isPySpace c
    · rw [if_pos hc] at hw
      by_cases hacc : acc.isEmpty
      · rw [if_pos hacc] at hw
        exact ih [] w hw
      · rw [if_neg hacc] at hw
        rcases List.mem_cons.mp hw with rfl | hmem
        · simpa [List.isEmpty_iff] using hacc
        · exact ih [] w hmem
    · rw [if_neg hc] at hw
      exact ih (c :: acc) w hw

theorem splitWs_ne_nil (l : List Char) : ∀ w ∈ splitWs l, w ≠ [] :=
  splitWsAux_ne_nil l []

theorem joinSpace_ne_nil :
    ∀ (ws : List (List Char)), ws ≠ [] → (∀ w ∈ ws, w ≠ []) →
      joinSpace ws ≠ [] := by
  intro ws hne hall
  match ws with
  | [] => exact absurd rfl hne
  | w :: rest =>
    rw [joinSpace]
    have hw : w ≠ [] := hall w (by simp)
    intro hcontra
    rcases List.append_eq_nil.mp hcontra with ⟨h1, -⟩
    exact hw h1

/-- C6 amended: the stoplist-removal fallback guarantees the cleaner's
intermediate result (before the final `rstrip('?!.')`) is non-empty
whenever the trimmed lowercased topic is non-empty; the final query is
that intermediate with trailing `?!.` stripped, and can therefore still
be empty when the intermediate consists solely of those punctuation
characters (see the counterexample, topic `"?"`). -/
theorem extract_core_subject_amended (topic : String)
    (h : stripChars (lowerChars topic.data) ≠ []) :
    coreSubjectNoPunct topic ≠ [] ∧
    _extract_core_subject topic = ⟨rstripPunctChars (coreSubjectNoPunct topic)⟩ := by
  refine ⟨?_, rfl⟩
  have hl0 : lastNonSpace (stripChars (lowerChars topic.data)) :=
    lastNonSpace_stripChars h
  obtain ⟨h1, _⟩ := stripLeadPhrases_preserves h hl0
  rw [coreSubjectNoPunct]
  set text := stripLeadPhrases (stripChars (lowerChars topic.data)) with htext
  set filtered := (splitWs text).filter
    (fun w => !(noiseWords.contains (⟨w⟩ : String))) with hfil
  by_cases hemp : filtered.isEmpty
  · rw [if_pos hemp]
    exact h1
  · rw [if_neg hemp]
    refine joinSpace_ne_nil filtered (by simpa using hemp) ?_
    intro w hw
    exact splitWs_ne_nil text w (List.mem_of_mem_filter hw)

/-- Witness for C6 (amended): a topic with real content yields a
non-empty intermediate result. -/
theorem extract_core_subject_amended_witness :
    stripChars (lowerChars ("Best AI tools?" : String).data) ≠ [] ∧
    coreSubjectNoPunct "Best AI tools?" ≠ [] :=
  ⟨by decide, (extract_core_subject_amended "Best AI tools?" (by decide)).1⟩

/-! ### Result Normalizer
(`dataforseo_search.py`, `_normalize_results` lines 164-245 and
`_extract_mention` lines 248-282) -/

/-- A reference dict inside an ai_overview entry; a `none` field models a
missing key, so Python `.get` defaults are explicit. -/
structure Reference where
  url : Option String
  title : Option String
  text : Option String
  snippet : Option String
  domain : Option String
deriving DecidableEq

/-- An entry of `result[0]["items"]`. -/
structure AiEntry where
  type : String
  markdown : Option String
  text : Option String
  references : List Reference
deriving DecidableEq

/-- An element of a task's `result` list. -/
structure TaskResult where
  items : List AiEntry
deriving DecidableEq

/-- An element of the response's `tasks` list. -/
structure ApiTask where
  status_code : Int
  status_message : String
  result : List TaskResult
deriving DecidableEq

/-- A decoded DataForSEO response body. -/
structure ApiResponse where
  tasks : List ApiTask
deriving DecidableEq

/-- `EXCLUDED_DOMAINS` (lines 19-22): social domains handled by dedicated
sibling sources. -/
def EXCLUDED_DOMAINS : List String :=
  ["reddit.com", "www.reddit.com", "old.reddit.com",
   "twitter.com", "www.twitter.com", "x.com", "www.x.com"]

/-- The `search_terms` list of `_extract_mention` (lines 265-270): the
domain, then the first ≥2 words of a non-empty title. -/
def mentionTerms (title domain : String) : List (List Char) :=
  let ws := (splitWs title.data).take 4
  if title ≠ "" ∧ 2 ≤ ws.length then [domain.data, joinSpace ws]
  else [domain.data]

/-- The inner sentence scan: first sentence containing the lowered term
whose `strip()` is non-empty, truncated to 150 characters. -/
def findInSentences (termLower : List Char) : List (List Char) → Option (List Char)
  | [] => none
  | s :: ss =>
    if containsSub termLower (lowerChars s) then
      if (stripChars s).isEmpty then findInSentences termLower ss
      else some ((stripChars s).take 150)
    else findInSentences termLower ss

/-- The outer loop over search terms, in order. -/
def findMention : List (List Char) → List (List Char) → Option (List Char)
  | [], _ => none
  | t :: ts, sentences =>
    match findInSentences (lowerChars t) sentences with
    | some s => some s
    | none => findMention ts sentences

/-- `_extract_mention(ai_overview, title, domain)`: newlines collapsed to
spaces, split on `.`, first sentence mentioning the domain or the title
phrase (case-insensitively); empty string when nothing matches. -/
def _extract_mention (aiOverview title domain : String) : String :=
  if aiOverview = "" then ""
  else
    let sentences := splitOnChar '.'
      (aiOverview.data.map (fun c => if c == '\n' then ' ' else c))
    match findMention (mentionTerms title domain) sentences with
    | some s => ⟨s⟩
    | none => ""

/-- Process one enumerated reference (lines 212-243): skip when the url is
missing/empty, when the parsed lowercased domain is excluded, or when both
the stripped title and snippet are empty; otherwise emit the WebItem with
id `D{i+1}`.  (The model treats URL parsing as total; the Python
`except` fallback to `ref["domain"]` is unreachable for parseable URLs.) -/
def normRef (aiOverview : String) (i : Nat) (ref : Reference) : Option WebItem :=
  let url := ref.url.getD ""
  if url = "" then none
  else
    let domain0 := pyLower (netloc url)
    if domain0 ∈ EXCLUDED_DOMAINS then none
    else
      let domain := if leadsWith ("www." : String).data domain0.data
                    then (⟨domain0.data.drop 4⟩ : String) else domain0
      let title := pyStrip (ref.title.getD "")
      let snippet := pyStrip (match ref.text with
        | some t => t
        | none => ref.snippet.getD "")
      if title = "" ∧ snippet = "" then none
      else some {
        id := "D" ++ natRepr (i + 1),
        title := strTake 200 title,
        url := url,
        source_domain := domain,
        snippet := strTake 500 snippet,
        date := none,
        date_confidence := "low",
        relevance := relOverview,
        why_relevant := _extract_mention aiOverview title domain }

/-- Process one entry of `result[0]["items"]` (lines 201-243), threading
the mutable `ai_overview` accumulator: only `ai_overview`-typed entries
contribute; `overview_text = entry.get("markdown","") or
entry.get("text","")` replaces the accumulator when non-empty, and the
entry's references are enumerated from 0. -/
def normEntry (aiOv : String) (entry : AiEntry) : List WebItem × String :=
  if entry.type = "ai_overview" then
    let md := entry.markdown.getD ""
    let ovText := if md ≠ "" then md else entry.text.getD ""
    let aiOv2 := if ovText ≠ "" then ovText else aiOv
    (entry.references.enum.filterMap (fun p => normRef aiOv2 p.1 p.2), aiOv2)
  else ([], aiOv)

/-- `_normalize_results(response, from_date, to_date)` (the date arguments
are accepted but unused by the Python function): descend
`tasks[0]` → check `status_code == 20000` → `result[0].items`, folding
`normEntry` over the entries. -/
def _normalize_results (response : ApiResponse) (fromDate toDate : String) :
    List WebItem × String :=
  match response.tasks with
  | [] => ([], "")
  | task :: _ =>
    if task.status_code ≠ 20000 then ([], "")
    else
      match task.result with
      | [] => ([], "")
      | result :: _ =>
        result.items.foldl
          (fun acc entry => ((acc.1 ++ (normEntry acc.2 entry).1),
                             (normEntry acc.2 entry).2))
          ([], "")

/-- The item component of `search_web` (lines 50-82), given the decoded
per-query responses in issuance order: normalize each response and dedup
across queries with the shared `seen_urls` set. -/
def search_web_items (responses : List ApiResponse) (fromDate toDate : String) :
    List WebItem :=
  dedupAcrossQueries
    (responses.map (fun r => (_normalize_results r fromDate toDate).1))

/-! ### Theorems: C7, C8, C9 -/

theorem str_ne_empty_iff {s : String} : s ≠ "" ↔ s.data ≠ [] := by
  constructor
  · intro h hd
    exact h (stringExt hd)
  · intro h hs
    rw [hs] at h
    exact h rfl

theorem strTake_ne_empty {n : Nat} {s : String} (hn : n ≠ 0) (hs : s ≠ "") :
    strTake n s ≠ "" := by
  rw [str_ne_empty_iff] at hs ⊢
  show s.data.take n ≠ []
  rw [Ne, List.take_eq_nil_iff]
  tauto

theorem digitChar_toNat {d : Nat} (h : d < 10) : (digitChar d).toNat = 48 + d := by
  interval_cases d <;> decide

/-- Numeric value of a digit string (left fold), used to invert
`natDigits`. -/
def digitsVal (l : List Char) : Nat :=
  l.foldl (fun a c => a * 10 + (c.toNat - 48)) 0

theorem digitsVal_append (l : List Char) (c : Char) :
    digitsVal (l ++ [c]) = digitsVal l * 10 + (c.toNat - 48) := by
  rw [digitsVal, digitsVal, List.foldl_append]
  rfl

theorem digitsVal_natDigitsAux :
    ∀ (fuel n : Nat), n < fuel → digitsVal (natDigitsAux n fuel) = n := by
  intro fuel
  induction fuel with
  | zero => intro n h; omega
  | succ m ih =>
    intro n h
    rw [natDigitsAux]
    by_cases h10 : n < 10
    · rw [if_pos h10]
      rw [digitsVal]
      simp only [List.foldl_cons, List.foldl_nil, digitChar_toNat h10]
      omega
    · rw [if_neg h10]
      rw [digitsVal_append]
      have hdivlt : n / 10 < m := by
        have h2 := Nat.div_lt_self (show 0 < n by omega) (show 1 < 10 by omega)
        omega
      rw [ih (n / 10) hdivlt, digitChar_toNat (Nat.mod_lt n (by omega))]
      have h3 := Nat.div_add_mod n 10
      omega

theorem natRepr_inj {m n : Nat} (h : natRepr m = natRepr n) : m = n := by
  have hd : natDigitsAux m (m + 1) = natDigitsAux n (n + 1) :=
    congrArg String.data h
  have h1 := digitsVal_natDigitsAux (m + 1) m (by omega)
  have h2 := digitsVal_natDigitsAux (n + 1) n (by omega)
  rw [← h1, ← h2, hd]

theorem refId_inj {a b : Nat}
    (h : "D" ++ natRepr (a + 1) = "D" ++ natRepr (b + 1)) : a = b := by
  have hd := congrArg String.data h
  rw [String.data_append, String.data_append] at hd
  have h2 : (natRepr (a + 1)).data = (natRepr (b + 1)).data :=
    List.append_cancel_left hd
  have h3 := natRepr_inj (stringExt h2)
  omega

theorem normRef_props {aiOv : String} {i : Nat} {ref : Reference}
    {item : WebItem} (h : normRef aiOv i ref = some item) :
    item.url ≠ "" ∧ (item.title ≠ "" ∨ item.snippet ≠ "") ∧
    pyLower (netloc item.url) ∉ EXCLUDED_DOMAINS ∧
    item.id = "D" ++ natRepr (i + 1) := by
  simp only [normRef] at h
  split_ifs at h with h1 h2 h3 h4 <;> try exact Option.noConfusion h
  all_goals (
    injection h with h5
    subst h5
    refine ⟨h1, ?_, h2, rfl⟩
    by_cases htl : pyStrip (ref.title.getD "") = ""
    · have hsn : pyStrip (match ref.text with
          | some t => t
          | none => ref.snippet.getD "") ≠ "" := fun hs => h3 ⟨htl, hs⟩
      exact Or.inr (strTake_ne_empty (by omega) hsn)
    · exact Or.inl (strTake_ne_empty (by omega) htl))

theorem mem_foldl_normEntry (entries : List AiEntry) :
    ∀ (acc : List WebItem × String) (item : WebItem),
      item ∈ (entries.foldl (fun acc entry =>
        ((acc.1 ++ (normEntry acc.2 entry).1), (normEntry acc.2 entry).2)) acc).1 →
      item ∈ acc.1 ∨ ∃ aiOv entry, item ∈ (normEntry aiOv entry).1 := by
  induction entries with
  | nil => intro acc item h; exact Or.inl h
  | cons e es ih =>
    intro acc item h
    rw [List.foldl_cons] at h
    rcases ih _ item h with hmem | hex
    · rcases List.mem_append.mp hmem with ha | hb
      · exact Or.inl ha
      · exact Or.inr ⟨acc.2, e, hb⟩
    · exact Or.inr hex

theorem mem_normalize_results {response : ApiResponse} {fromDate toDate : String}
    {item : WebItem}
    (h : item ∈ (_normalize_results response fromDate toDate).1) :
    ∃ aiOv entry, item ∈ (normEntry aiOv entry).1 := by
  unfold _normalize_results at h
  rcases response with ⟨tasks⟩
  cases tasks with
  | nil => simp at h
  | cons task rest =>
    dsimp only at h
    by_cases hs : task.status_code ≠ 20000
    · rw [if_pos hs] at h; simp at h
    · rw [if_neg hs] at h
      cases hres : task.result with
      | nil => rw [hres] at h; simp at h
      | cons r rs =>
        rw [hres] at h
        dsimp only at h
        rcases mem_foldl_normEntry r.items ([], "") item h with h1 | h2
        · simp at h1
        · exact h2

theorem mem_normEntry {aiOv : String} {entry : AiEntry} {item : WebItem}
    (h : item ∈ (normEntry aiOv entry).1) :
    ∃ aiOv2 i ref, normRef aiOv2 i ref = some item := by
  rw [normEntry] at h
  by_cases ht : entry.type = "ai_overview"
  · rw [if_pos ht] at h
    dsimp only at h
    obtain ⟨p, hp, hfp⟩ := List.mem_filterMap.mp h
    exact ⟨_, p.1, p.2, hfp⟩
  · rw [if_neg ht] at h
    simp at h

/-- C7: every WebItem emitted by the overview-source normalizer has a
non-empty url and a non-empty title or snippet; a reference with an
empty/missing url, or with neither a (stripped) title nor snippet,
is dropped and contributes no item. -/
theorem normalize_results_item_invariant (response : ApiResponse)
    (fromDate toDate : String) :
    (∀ item ∈ (_normalize_results response fromDate toDate).1,
      item.url ≠ "" ∧ (item.title ≠ "" ∨ item.snippet ≠ "")) ∧
    (∀ (aiOv : String) (i : Nat) (ref : Reference),
      ref.url.getD "" = "" → normRef aiOv i ref = none) ∧
    (∀ (aiOv : String) (i : Nat) (ref : Reference),
      pyStrip (ref.title.getD "") = "" →
      pyStrip (match ref.text with
        | some t => t
        | none => ref.snippet.getD "") = "" →
      normRef aiOv i ref = none) := by
  refine ⟨?_, ?_, ?_⟩
  · intro item hmem
    obtain ⟨aiOv, entry, h⟩ := mem_normalize_results hmem
    obtain ⟨a2, i, ref, hn⟩ := mem_normEntry h
    obtain ⟨h1, h2, -, -⟩ := normRef_props hn
    exact ⟨h1, h2⟩
  · intro aiOv i ref h
    simp only [normRef]
    rw [if_pos h]
  · intro aiOv i ref ht hs
    simp only [normRef]
    split_ifs with h1 h2 h3
    · rfl
    · rfl
    · rfl
    · exact absurd ⟨ht, hs⟩ h3

def w7ref : Reference :=
  { url := some "https://a.com/x", title := some "Title", text := none,
    snippet := none, domain := none }

def w7resp : ApiResponse :=
  ⟨[{ status_code := 20000, status_message := "Ok.",
      result := [⟨[{ type := "ai_overview", markdown := some "Overview.",
                     text := none, references := [w7ref] }]⟩] }]⟩

def w7item : WebItem :=
  { id := "D1", title := "Title", url := "https://a.com/x",
    source_domain := "a.com", snippet := "", date := none,
    date_confidence := "low", relevance := relOverview, why_relevant := "" }

/-- Witness for C7: a concrete normalized item satisfies the invariant. -/
theorem normalize_results_item_invariant_witness :
    w7item ∈ (_normalize_results w7resp "2025-01-01" "2025-01-31").1 ∧
    (w7item.url ≠ "" ∧ (w7item.title ≠ "" ∨ w7item.snippet ≠ "")) := by
  refine ⟨by decide, ?_⟩
  exact (normalize_results_item_invariant w7resp "2025-01-01" "2025-01-31").1
    w7item (by decide)

/-- C9: a reference whose URL parses (case-insensitively) to a domain in
the fixed excluded social-media set is excluded entirely and produces no
WebItem; consequently no emitted item's URL parses to an excluded
domain. -/
theorem normalize_results_excluded (response : ApiResponse)
    (fromDate toDate : String) :
    (∀ (aiOv : String) (i : Nat) (ref : Reference),
      pyLower (netloc (ref.url.getD "")) ∈ EXCLUDED_DOMAINS →
      normRef aiOv i ref = none) ∧
    (∀ item ∈ (_normalize_results response fromDate toDate).1,
      pyLower (netloc item.url) ∉ EXCLUDED_DOMAINS) := by
  refine ⟨?_, ?_⟩
  · intro aiOv i ref hdom
    simp only [normRef]
    split_ifs <;> rfl
  · intro item hmem
    obtain ⟨aiOv, entry, h⟩ := mem_normalize_results hmem
    obtain ⟨a2, i, ref, hn⟩ := mem_normEntry h
    exact (normRef_props hn).2.2.1

def w9ref : Reference :=
  { url := some "https://www.Reddit.com/r/ebikes/comments/1",
    title := some "Best Electric Bikes 2026", text := none,
    snippet := none, domain := none }

/-- Witness for C9: a reddit reference (www-prefixed, mixed case) is
dropped by the normalizer. -/
theorem normalize_results_excluded_witness :
    pyLower (netloc (w9ref.url.getD "")) ∈ EXCLUDED_DOMAINS ∧
    normRef "" 0 w9ref = none := by
  refine ⟨by decide, ?_⟩
  exact (normalize_results_excluded ⟨[]⟩ "" "").1 "" 0 w9ref (by decide)

theorem map_id_filterMap_sublist (f : Nat × Reference → Option WebItem)
    (g : Nat → String)
    (hf : ∀ p it, f p = some it → it.id = g p.1) :
    ∀ l : List (Nat × Reference),
      List.Sublist ((l.filterMap f).map (fun it => it.id))
        (l.map (fun p => g p.1)) := by
  intro l
  induction l with
  | nil => simp
  | cons p t ih =>
    cases hfp : f p with
    | none =>
      rw [List.filterMap_cons_none hfp, List.map_cons]
      exact List.Sublist.cons _ ih
    | some it =>
      rw [List.filterMap_cons_some hfp, List.map_cons, List.map_cons,
        hf p it hfp]
      exact List.Sublist.cons₂ _ ih

/-- C8 amended: the `id` fields are pairwise distinct among the WebItems
produced from any single ai_overview entry (`D1, D2, ...` by reference
index); the index restarts for each entry and each query, so a call that
issues more than one query can repeat ids (see the counterexample). -/
theorem normEntry_ids_nodup (aiOv : String) (entry : AiEntry) :
    ((normEntry aiOv entry).1.map (fun item => item.id)).Nodup := by
  rw [normEntry]
  by_cases ht : entry.type = "ai_overview"
  · rw [if_pos ht]
    dsimp only
    refine List.Nodup.sublist
      (map_id_filterMap_sublist _ (fun i => "D" ++ natRepr (i + 1))
        (fun p it hp => (normRef_props hp).2.2.2) entry.references.enum) ?_
    have hmm : entry.references.enum.map (fun p => "D" ++ natRepr (p.1 + 1)) =
        (entry.references.enum.map Prod.fst).map
          (fun i => "D" ++ natRepr (i + 1)) := by
      rw [List.map_map]
      rfl
    rw [hmm, List.enum_map_fst]
    exact List.Nodup.map (fun a b hab => refId_inj hab) (List.nodup_range _)
  · rw [if_neg ht]
    simp

def w8resp (u : String) : ApiResponse :=
  ⟨[{ status_code := 20000, status_message := "Ok.",
      result := [⟨[{ type := "ai_overview", markdown := some "Overview.",
                     text := none, references :=
                       [{ url := some u, title := some "T", text := none,
                          snippet := none, domain := none }] }]⟩] }]⟩

/-- C8 counterexample: a call issuing two queries, each of whose responses
carries a single (distinct-URL) reference: both merged items get id "D1",
so the ids are not pairwise distinct within the call. -/
theorem search_web_ids_cex :
    ((search_web_items [w8resp "https://a.com/x", w8resp "https://b.com/y"]
        "2025-01-01" "2025-01-31").map (fun item => item.id)) = ["D1", "D1"] ∧
    ¬ ((search_web_items [w8resp "https://a.com/x", w8resp "https://b.com/y"]
        "2025-01-01" "2025-01-31").map (fun item => item.id)).Nodup := by
  have h1 : ((search_web_items [w8resp "https://a.com/x", w8resp "https://b.com/y"]
      "2025-01-01" "2025-01-31").map (fun item => item.id)) = ["D1", "D1"] := by
    decide
  refine ⟨h1, ?_⟩
  rw [h1]
  decide

end LastThirtyDays
